import Mathlib

/-! Verification of `circular_buffer`.

A shallow embedding of `src/circular_buffer.h` (`template <typename T, std::size_t S>
class circular_buffer`) and a verification of its index arithmetic and block splitting.

Modelling conventions.

* A pointer into `buf` is the natural number `p - buf` (its element offset); `buf_end` is `S`.
  `nullptr` is `none`.
* `size_type` is 64-bit `std::size_t`: arithmetic on `cur_size` and the conversion of a pointer
  difference to `size_type` are taken modulo `2 ^ 64`.
* Pointer arithmetic is exact on offsets: the model does not wrap `head` or `tail` at the
  address width. Calls within the contract keep both inside `buf`, where model and code agree;
  for calls beyond the contract the general theorems speak of `cur_size` only.
* Dereferencing a pointer outside `buf` is undefined behaviour in C++; the model reports it as
  the distinct outcome `fault.out_of_bounds`, so that it can never be mistaken for the
  exception `std::out_of_range` (`fault.out_of_range`).
-/

namespace CircularBuffer

/-- The number of values of `std::size_t`; unsigned arithmetic is modulo this number. -/
def size_type_mod : Nat := 2 ^ 64

/-- Conversion of a signed pointer difference to `size_type`. -/
def to_size_type (z : Int) : Nat := (z % (size_type_mod : Int)).toNat

/-- The two ways an element access can fail to deliver an element. -/
inductive fault where
  /-- the exception `std::out_of_range` thrown by `at` -/
  | out_of_range
  /-- a dereference of a pointer that does not point into `buf` -/
  | out_of_bounds
deriving DecidableEq

/-- A `struct block { pointer data; size_type size; }`; `data = none` is `nullptr`,
`data = some p` is `buf + p`. -/
structure block where
  data : Option Nat
  size : Nat
deriving DecidableEq

/-- The private state of `circular_buffer<T, S>`: the array `buf[S]` and the cursors
`head`, `tail` (as offsets from `buf`) and `cur_size`. -/
structure circular_buffer (T : Type) (S : Nat) where
  buf : Fin S → T
  head : Nat
  tail : Nat
  cur_size : Nat

namespace circular_buffer

variable {T : Type} {S : Nat}

/-- A freshly constructed buffer: `head = buf, tail = buf, cur_size = 0`; the elements are
whatever the default initialisation left in `buf`. -/
def init (buf : Fin S → T) : circular_buffer T S :=
  { buf := buf, head := 0, tail := 0, cur_size := 0 }

/-- The statement `*p` for the pointer `buf + p`. -/
def deref (s : circular_buffer T S) (p : Nat) : Except fault T :=
  if h : p < S then .ok (s.buf ⟨p, h⟩) else .error .out_of_bounds

/-- The statement `if (p >= buf_end) p -= S;`. -/
def wrap_once (S : Nat) (p : Nat) : Nat :=
  if p ≥ S then p - S else p

/-- The pointer computed by `at` and `operator[]`: `head + n`, wrapped once. -/
def slot (s : circular_buffer T S) (n : Nat) : Nat :=
  wrap_once S (s.head + n)

/-- The member `at(n)`. -/
def at_ (s : circular_buffer T S) (n : Nat) : Except fault T :=
  if n ≥ s.cur_size then .error .out_of_range
  else s.deref (s.slot n)

/-- The member `operator[](n)`. -/
def index (s : circular_buffer T S) (n : Nat) : Except fault T :=
  s.deref (s.slot n)

/-- The member `front()`. -/
def front (s : circular_buffer T S) : Except fault T :=
  s.deref s.head

/-- The member `back()`; the pointer `head + cur_size - 1` may lie one before `buf`. -/
def back (s : circular_buffer T S) : Except fault T :=
  let p : Int := (s.head : Int) + (s.cur_size : Int) - 1
  let p : Int := if p ≥ (S : Int) then p - (S : Int) else p
  if p < 0 then .error .out_of_bounds else s.deref p.toNat

/-- The member `empty()`. -/
def empty (s : circular_buffer T S) : Bool :=
  s.cur_size == 0

/-- The member `size()`. -/
def size (s : circular_buffer T S) : Nat :=
  s.cur_size

/-- The member `max_size()`. -/
def max_size (_s : circular_buffer T S) : Nat :=
  S

/-- The member `fill(value)`: the loop `for (i = 0; i < S; ++i) buf[i] = value;` and the
reset of the cursors. -/
def fill (s : circular_buffer T S) (value : T) : circular_buffer T S :=
  { buf := (List.finRange S).foldl (fun b i => Function.update b i value) s.buf
    head := 0
    tail := 0
    cur_size := S }

/-- The member `clear()`. -/
def clear (s : circular_buffer T S) : circular_buffer T S :=
  { s with head := 0, tail := 0, cur_size := 0 }

/-- The member `get_free_blocks()`. -/
def get_free_blocks (s : circular_buffer T S) : block × block :=
  if s.cur_size = S then
    (⟨none, 0⟩, ⟨none, 0⟩)
  else if s.tail ≥ s.head then
    let space_at_end := to_size_type ((S : Int) - (s.tail : Int))
    let space_at_start := to_size_type (s.head : Int)
    if space_at_start = 0 then
      (⟨some s.tail, space_at_end⟩, ⟨none, 0⟩)
    else
      (⟨some s.tail, space_at_end⟩, ⟨some 0, space_at_start⟩)
  else
    (⟨some s.tail, to_size_type ((s.head : Int) - (s.tail : Int))⟩, ⟨none, 0⟩)

/-- The member `get_used_blocks()`. -/
def get_used_blocks (s : circular_buffer T S) : block × block :=
  if s.cur_size = 0 then
    (⟨none, 0⟩, ⟨none, 0⟩)
  else if s.head < s.tail then
    (⟨some s.head, s.cur_size⟩, ⟨none, 0⟩)
  else
    let size_to_end := to_size_type ((S : Int) - (s.head : Int))
    let size_from_start := to_size_type (s.tail : Int)
    if size_from_start = 0 then
      (⟨some s.head, size_to_end⟩, ⟨none, 0⟩)
    else
      (⟨some s.head, size_to_end⟩, ⟨some 0, size_from_start⟩)

/-- The member `add_used_bytes(n)`. -/
def add_used_bytes (s : circular_buffer T S) (n : Nat) : circular_buffer T S :=
  { s with
    tail := wrap_once S (s.tail + n)
    cur_size := (s.cur_size + n) % size_type_mod }

/-- The member `remove_used_bytes(n)`. -/
def remove_used_bytes (s : circular_buffer T S) (n : Nat) : circular_buffer T S :=
  { s with
    head := wrap_once S (s.head + n)
    cur_size := to_size_type ((s.cur_size : Int) - (n : Int)) }

/-- The cursor invariant of the specification. -/
def Inv (s : circular_buffer T S) : Prop :=
  s.head < S ∧ s.tail < S ∧ s.cur_size ≤ S ∧ s.tail = (s.head + s.cur_size) % S

instance (s : circular_buffer T S) : Decidable s.Inv := by
  unfold Inv; infer_instance

/-- The states reachable from a freshly constructed buffer by the mutating members, the two
commit members being called within their contract. -/
inductive Reachable : circular_buffer T S → Prop where
  | init (buf : Fin S → T) : Reachable (init buf)
  | fill {s : circular_buffer T S} (v : T) : Reachable s → Reachable (s.fill v)
  | clear {s : circular_buffer T S} : Reachable s → Reachable s.clear
  | add_used_bytes {s : circular_buffer T S} (n : Nat) :
      Reachable s → n ≤ S - s.cur_size → Reachable (s.add_used_bytes n)
  | remove_used_bytes {s : circular_buffer T S} (n : Nat) :
      Reachable s → n ≤ s.cur_size → Reachable (s.remove_used_bytes n)

/-- The physical positions a block covers, in increasing address order. -/
def block_positions (b : block) : List Nat :=
  match b.data with
  | none => []
  | some p => (List.range b.size).map (fun j => p + j)

/-- The physical positions covered by the first and then the second used block. -/
def used_positions (s : circular_buffer T S) : List Nat :=
  block_positions s.get_used_blocks.1 ++ block_positions s.get_used_blocks.2

/-- The physical positions covered by the first and then the second free block. -/
def free_positions (s : circular_buffer T S) : List Nat :=
  block_positions s.get_free_blocks.1 ++ block_positions s.get_free_blocks.2

/-! ### The caller's side of the block interface

The members only describe where to write and read; the values are moved by the caller through
the returned pointers. The following definitions are that caller, following the usage the
specification describes: obtain the blocks, move values through the first block and then the
second, commit the count. -/

/-- The assignment `*(buf + p) = v`; nothing is stored outside `buf`. -/
def store (buf : Fin S → T) (p : Nat) (v : T) : Fin S → T :=
  if h : p < S then Function.update buf ⟨p, h⟩ v else buf

/-- Stores the values, in order, at the given positions, in order. -/
def store_all (buf : Fin S → T) : List Nat → List T → (Fin S → T)
  | p :: ps, v :: vs => store_all (store buf p v) ps vs
  | _, _ => buf

/-- Reads the elements at the given positions, in order. -/
def read_all (s : circular_buffer T S) : List Nat → Except fault (List T)
  | [] => .ok []
  | p :: ps =>
    match s.deref p, read_all s ps with
    | .ok x, .ok xs => .ok (x :: xs)
    | .error e, _ => .error e
    | .ok _, .error e => .error e

/-- One producer round: `get_free_blocks()`, store `vals` into the first block and then the
second, `add_used_bytes(vals.length)`. -/
def write_round (s : circular_buffer T S) (vals : List T) : circular_buffer T S :=
  ({ s with buf := store_all s.buf s.free_positions vals }).add_used_bytes vals.length

/-- One consumer round: `get_used_blocks()`, read `c` elements from the first block and then
the second, `remove_used_bytes(c)`. -/
def read_round (s : circular_buffer T S) (c : Nat) : Except fault (List T) × circular_buffer T S :=
  (s.read_all (s.used_positions.take c), s.remove_used_bytes c)

/-- Successive producer rounds, one per chunk of values. -/
def write_rounds (s : circular_buffer T S) : List (List T) → circular_buffer T S
  | [] => s
  | vals :: rest => write_rounds (s.write_round vals) rest

/-- Concatenation of what two successive reads delivered. -/
def append_read : Except fault (List T) → Except fault (List T) → Except fault (List T)
  | .ok xs, .ok ys => .ok (xs ++ ys)
  | .error e, _ => .error e
  | .ok _, .error e => .error e

/-- Successive consumer rounds, one per count; the values read, in order, and the final
state. -/
def read_rounds (s : circular_buffer T S) :
    List Nat → Except fault (List T) × circular_buffer T S
  | [] => (.ok [], s)
  | c :: rest =>
    (append_read (s.read_round c).1 (read_rounds (s.read_round c).2 rest).1,
      (read_rounds (s.read_round c).2 rest).2)

/-- The logical contents: the occupied elements, oldest first. -/
def contents (hS : 0 < S) (s : circular_buffer T S) : List T :=
  (List.range s.cur_size).map (fun i => s.buf ⟨(s.head + i) % S, Nat.mod_lt _ hS⟩)

/-- The pointer differences `get_free_blocks()` converts to `size_type`, in the order the
branch taken computes them: `buf_end - tail` and `head - buf`, or `head - tail`. -/
def free_block_differences (s : circular_buffer T S) : List Int :=
  if s.cur_size = S then []
  else if s.tail ≥ s.head then [(S : Int) - (s.tail : Int), (s.head : Int) - 0]
  else [(s.head : Int) - (s.tail : Int)]

/-- The pointer differences `get_used_blocks()` converts to `size_type`, in the order the
branch taken computes them: `buf_end - head` and `tail - buf`. -/
def used_block_differences (s : circular_buffer T S) : List Int :=
  if s.cur_size = 0 then []
  else if s.head < s.tail then []
  else [(S : Int) - (s.head : Int), (s.tail : Int) - 0]

end circular_buffer

/-- A capacity-4 buffer of naturals after `add_used_bytes(3)` and `remove_used_bytes(2)`:
`head = 2`, `tail = 3`, `cur_size = 1`. -/
def example_buffer : circular_buffer Nat 4 :=
  ((circular_buffer.init (fun i => (i : Nat) + 10)).add_used_bytes 3).remove_used_bytes 2

/-- The example buffer after a further `add_used_bytes(2)`: `head = 2`, `tail = 1`,
`cur_size = 3`, so the occupied region wraps around the end of the storage. -/
def example_wrapped : circular_buffer Nat 4 :=
  example_buffer.add_used_bytes 2

/-- A capacity-4 buffer whose cursors satisfy no invariant, as out-of-contract commits can
leave it. -/
def example_corrupt : circular_buffer Nat 4 :=
  { buf := fun i => (i : Nat) + 10, head := 7, tail := 9, cur_size := 100 }

/-- A capacity-4 buffer after `add_used_bytes(3)`: `head = 0`, `tail = 3`, `cur_size = 3`. -/
def example_three : circular_buffer Nat 4 :=
  (circular_buffer.init (fun i => (i : Nat) + 10)).add_used_bytes 3

/-! ## Arithmetic helpers -/

theorem size_type_mod_eq : size_type_mod = 18446744073709551616 := by
  unfold size_type_mod; norm_num

theorem to_size_type_natCast (n : Nat) (h : n < size_type_mod) :
    to_size_type (n : Int) = n := by
  unfold to_size_type
  rw [size_type_mod_eq] at *
  omega

theorem to_size_type_zero : to_size_type 0 = 0 := by
  unfold to_size_type
  rw [size_type_mod_eq]
  omega

theorem to_size_type_sub (a b : Nat) (hba : b ≤ a) (h : a < size_type_mod) :
    to_size_type ((a : Int) - (b : Int)) = a - b := by
  unfold to_size_type
  rw [size_type_mod_eq] at *
  omega

namespace circular_buffer

variable {T : Type} {S : Nat}

theorem wrap_once_eq_mod {p : Nat} (h : p < 2 * S) : wrap_once S p = p % S := by
  unfold wrap_once
  split
  · rw [Nat.mod_eq_sub_mod (by omega), Nat.mod_eq_of_lt (by omega)]
  · rw [Nat.mod_eq_of_lt (by omega)]

theorem wrap_once_lt {p : Nat} (h : p < 2 * S) (hS : 0 < S) : wrap_once S p < S := by
  rw [wrap_once_eq_mod h]; exact Nat.mod_lt _ hS

/-! ## The example buffer -/

theorem capacity_four_lt : 4 < size_type_mod := by decide

theorem example_buffer_reachable : Reachable example_buffer :=
  .remove_used_bytes 2 (.add_used_bytes 3 (.init _) (by decide)) (by decide)

theorem example_buffer_inv : example_buffer.Inv := by decide

theorem example_wrapped_inv : example_wrapped.Inv := by decide

/-! ## Shape of the blocks under the invariant -/

theorem Inv.tail_cases {s : circular_buffer T S} (h : s.Inv) :
    (s.head + s.cur_size < S ∧ s.tail = s.head + s.cur_size) ∨
      (S ≤ s.head + s.cur_size ∧ s.tail + S = s.head + s.cur_size) := by
  obtain ⟨hh, ht, hc, hmod⟩ := h
  rcases Nat.lt_or_ge (s.head + s.cur_size) S with hlt | hge
  · left
    rw [Nat.mod_eq_of_lt hlt] at hmod
    exact ⟨hlt, hmod⟩
  · right
    rw [Nat.mod_eq_sub_mod hge, Nat.mod_eq_of_lt (by omega)] at hmod
    exact ⟨hge, by omega⟩

/-- The free blocks when the buffer is full. -/
theorem get_free_blocks_full (s : circular_buffer T S) (hfull : s.cur_size = S) :
    s.get_free_blocks = (⟨none, 0⟩, ⟨none, 0⟩) := by
  simp [get_free_blocks, hfull]

/-- The free blocks when the occupied region does not wrap and starts at position 0. -/
theorem get_free_blocks_end (hS64 : S < size_type_mod) {s : circular_buffer T S} (h : s.Inv)
    (hnf : s.cur_size ≠ S) (h0 : s.head = 0) :
    s.get_free_blocks = (⟨some s.tail, S - s.tail⟩, ⟨none, 0⟩) := by
  have e1 : to_size_type ((S : Int) - (s.tail : Int)) = S - s.tail :=
    to_size_type_sub _ _ (by have := h.2.1; omega) hS64
  simp [get_free_blocks, hnf, e1, h0, to_size_type_zero]

/-- The free blocks when the occupied region does not wrap and starts after position 0. -/
theorem get_free_blocks_split (hS64 : S < size_type_mod) {s : circular_buffer T S} (h : s.Inv)
    (hnf : s.cur_size ≠ S) (hge : s.tail ≥ s.head) (h0 : s.head ≠ 0) :
    s.get_free_blocks = (⟨some s.tail, S - s.tail⟩, ⟨some 0, s.head⟩) := by
  have e1 : to_size_type ((S : Int) - (s.tail : Int)) = S - s.tail :=
    to_size_type_sub _ _ (by have := h.2.1; omega) hS64
  have e2 : to_size_type (s.head : Int) = s.head :=
    to_size_type_natCast _ (by have := h.1; omega)
  simp [get_free_blocks, hnf, hge, e1, e2, h0]

/-- The free blocks when the occupied region wraps. -/
theorem get_free_blocks_mid (hS64 : S < size_type_mod) {s : circular_buffer T S} (h : s.Inv)
    (hnf : s.cur_size ≠ S) (hlt : s.tail < s.head) :
    s.get_free_blocks = (⟨some s.tail, s.head - s.tail⟩, ⟨none, 0⟩) := by
  have e1 : to_size_type ((s.head : Int) - (s.tail : Int)) = s.head - s.tail :=
    to_size_type_sub _ _ (by omega) (by have := h.1; omega)
  simp [get_free_blocks, hnf, Nat.not_le.mpr hlt, e1]

/-- The used blocks when the buffer is empty. -/
theorem get_used_blocks_empty (s : circular_buffer T S) (hempty : s.cur_size = 0) :
    s.get_used_blocks = (⟨none, 0⟩, ⟨none, 0⟩) := by
  simp [get_used_blocks, hempty]

/-- The used blocks when the occupied region does not wrap. -/
theorem get_used_blocks_mid {s : circular_buffer T S}
    (hne : s.cur_size ≠ 0) (hlt : s.head < s.tail) :
    s.get_used_blocks = (⟨some s.head, s.cur_size⟩, ⟨none, 0⟩) := by
  simp [get_used_blocks, hne, hlt]

/-- The used blocks when the occupied region ends exactly at the end of the storage. -/
theorem get_used_blocks_end (hS64 : S < size_type_mod) {s : circular_buffer T S} (h : s.Inv)
    (hne : s.cur_size ≠ 0) (h0 : s.tail = 0) :
    s.get_used_blocks = (⟨some s.head, S - s.head⟩, ⟨none, 0⟩) := by
  have e1 : to_size_type ((S : Int) - (s.head : Int)) = S - s.head :=
    to_size_type_sub _ _ (by have := h.1; omega) hS64
  simp [get_used_blocks, hne, e1, h0, to_size_type_zero]

/-- The used blocks when the occupied region wraps around the end of the storage. -/
theorem get_used_blocks_split (hS64 : S < size_type_mod) {s : circular_buffer T S} (h : s.Inv)
    (hne : s.cur_size ≠ 0) (hge : s.tail ≤ s.head) (h0 : s.tail ≠ 0) :
    s.get_used_blocks = (⟨some s.head, S - s.head⟩, ⟨some 0, s.tail⟩) := by
  have e1 : to_size_type ((S : Int) - (s.head : Int)) = S - s.head :=
    to_size_type_sub _ _ (by have := h.1; omega) hS64
  have e2 : to_size_type (s.tail : Int) = s.tail :=
    to_size_type_natCast _ (by have := h.2.1; omega)
  simp [get_used_blocks, hne, Nat.not_lt.mpr hge, e1, e2, h0]

/-! ## Positions covered by a pair of blocks -/

theorem positions_nowrap (S h n : Nat) (hn : h + n ≤ S) :
    (List.range n).map (fun j => h + j) = (List.range n).map (fun i => (h + i) % S) := by
  apply List.map_congr_left
  intro i hi
  rw [List.mem_range] at hi
  exact (Nat.mod_eq_of_lt (by omega)).symm

theorem positions_wrap (S h b : Nat) (hh : h ≤ S) (hb : b ≤ S) :
    (List.range (S - h)).map (fun j => h + j) ++ (List.range b).map (fun j => 0 + j) =
      (List.range (S - h + b)).map (fun i => (h + i) % S) := by
  rw [List.range_add, List.map_append, List.map_map, positions_nowrap S h (S - h) (by omega)]
  congr 1
  apply List.map_congr_left
  intro j hj
  rw [List.mem_range] at hj
  show 0 + j = (h + (S - h + j)) % S
  have e : h + (S - h + j) = j + S := by omega
  rw [e, Nat.add_mod_right, Nat.mod_eq_of_lt (by omega)]
  omega

theorem used_positions_eq (hS64 : S < size_type_mod) {s : circular_buffer T S} (h : s.Inv) :
    s.used_positions = (List.range s.cur_size).map (fun i => (s.head + i) % S) := by
  have hh := h.1
  have ht := h.2.1
  have hc := h.2.2.1
  unfold used_positions
  by_cases hne : s.cur_size = 0
  · rw [get_used_blocks_empty s hne, hne]; rfl
  · by_cases hlt : s.head < s.tail
    · rw [get_used_blocks_mid hne hlt]
      simp only [block_positions, List.append_nil]
      exact positions_nowrap S s.head s.cur_size (by rcases h.tail_cases with c | c <;> omega)
    · by_cases h0 : s.tail = 0
      · rw [get_used_blocks_end hS64 h hne h0]
        simp only [block_positions, List.append_nil]
        have e : s.cur_size = S - s.head := by rcases h.tail_cases with c | c <;> omega
        rw [e]
        exact positions_nowrap S s.head (S - s.head) (by omega)
      · rw [get_used_blocks_split hS64 h hne (by omega) h0]
        simp only [block_positions]
        have e : s.cur_size = S - s.head + s.tail := by
          rcases h.tail_cases with c | c <;> omega
        rw [e]
        exact positions_wrap S s.head s.tail (by omega) (by omega)

theorem free_positions_eq (hS64 : S < size_type_mod) {s : circular_buffer T S} (h : s.Inv) :
    s.free_positions = (List.range (S - s.cur_size)).map (fun j => (s.tail + j) % S) := by
  have hh := h.1
  have ht := h.2.1
  have hc := h.2.2.1
  unfold free_positions
  by_cases hnf : s.cur_size = S
  · rw [get_free_blocks_full s hnf, hnf]; simp [block_positions]
  · by_cases hlt : s.tail < s.head
    · rw [get_free_blocks_mid hS64 h hnf hlt]
      simp only [block_positions, List.append_nil]
      have e : S - s.cur_size = s.head - s.tail := by
        rcases h.tail_cases with c | c <;> omega
      rw [e]
      exact positions_nowrap S s.tail (s.head - s.tail) (by omega)
    · by_cases h0 : s.head = 0
      · rw [get_free_blocks_end hS64 h hnf h0]
        simp only [block_positions, List.append_nil]
        have e : S - s.cur_size = S - s.tail := by rcases h.tail_cases with c | c <;> omega
        rw [e]
        exact positions_nowrap S s.tail (S - s.tail) (by omega)
      · rw [get_free_blocks_split hS64 h hnf (by omega) h0]
        simp only [block_positions]
        have e : S - s.cur_size = S - s.tail + s.head := by
          rcases h.tail_cases with c | c <;> omega
        rw [e]
        exact positions_wrap S s.tail s.head (by omega) (by omega)

/-- Two offsets from `head` less than `S` apart never land on the same slot. -/
theorem mod_ne_of_lt_of_lt (S a b : Nat) (hab : a < b) (hba : b < a + S) :
    a % S ≠ b % S := by
  intro e
  have hd : S ∣ b - a := (Nat.modEq_iff_dvd' (Nat.le_of_lt hab)).mp e
  have := Nat.le_of_dvd (by omega) hd
  omega

theorem at_eq_deref (s : circular_buffer T S) (hh : s.head < S) (hc : s.cur_size ≤ S)
    {i : Nat} (hi : i < s.cur_size) :
    s.at_ i = s.deref ((s.head + i) % S) := by
  unfold at_ slot
  rw [if_neg (by omega), wrap_once_eq_mod (by omega)]

theorem deref_of_lt (s : circular_buffer T S) {p : Nat} (hp : p < S) :
    s.deref p = .ok (s.buf ⟨p, hp⟩) := by
  unfold deref
  rw [dif_pos hp]

/-! ## Preservation of the cursor invariant -/

theorem Inv_init (hS : 0 < S) (buf : Fin S → T) : (init buf).Inv := by
  simp [Inv, init, hS]

theorem Inv_fill (hS : 0 < S) (s : circular_buffer T S) (v : T) : (s.fill v).Inv := by
  simp [Inv, fill, hS]

theorem Inv_clear (hS : 0 < S) (s : circular_buffer T S) : s.clear.Inv := by
  simp [Inv, clear, hS]

theorem Inv_add_used_bytes (hS64 : S < size_type_mod) {s : circular_buffer T S} (h : s.Inv)
    {n : Nat} (hn : n ≤ S - s.cur_size) : (s.add_used_bytes n).Inv := by
  obtain ⟨hh, ht, hc, hmod⟩ := h
  have hlt : s.tail + n < 2 * S := by omega
  have hsz : (s.cur_size + n) % size_type_mod = s.cur_size + n :=
    Nat.mod_eq_of_lt (by omega)
  refine ⟨hh, ?_, ?_, ?_⟩
  · exact wrap_once_lt hlt (by omega)
  · show (s.cur_size + n) % size_type_mod ≤ S
    rw [hsz]; omega
  · show wrap_once S (s.tail + n) = (s.head + (s.cur_size + n) % size_type_mod) % S
    rw [hsz, wrap_once_eq_mod hlt, hmod, ← Nat.add_assoc, Nat.mod_add_mod]

theorem Inv_remove_used_bytes (hS64 : S < size_type_mod) {s : circular_buffer T S} (h : s.Inv)
    {n : Nat} (hn : n ≤ s.cur_size) : (s.remove_used_bytes n).Inv := by
  obtain ⟨hh, ht, hc, hmod⟩ := h
  have hlt : s.head + n < 2 * S := by omega
  have hsz : to_size_type ((s.cur_size : Int) - (n : Int)) = s.cur_size - n :=
    to_size_type_sub _ _ hn (by omega)
  refine ⟨?_, ht, ?_, ?_⟩
  · exact wrap_once_lt hlt (by omega)
  · show to_size_type ((s.cur_size : Int) - (n : Int)) ≤ S
    rw [hsz]; omega
  · show s.tail = (wrap_once S (s.head + n) + to_size_type ((s.cur_size : Int) - (n : Int))) % S
    rw [hsz, wrap_once_eq_mod hlt, Nat.mod_add_mod, hmod]
    congr 1; omega

/-! ## Moving values through the blocks -/

theorem free_positions_not_occupied (hS64 : S < size_type_mod) {s : circular_buffer T S}
    (h : s.Inv) {p : Nat} (hp : p ∈ s.free_positions) {i : Nat} (hi : i < s.cur_size) :
    p ≠ (s.head + i) % S := by
  rw [free_positions_eq hS64 h, List.mem_map] at hp
  obtain ⟨j, hj, rfl⟩ := hp
  rw [List.mem_range] at hj
  rw [h.2.2.2, Nat.mod_add_mod]
  exact (mod_ne_of_lt_of_lt S (s.head + i) (s.head + s.cur_size + j) (by omega) (by omega)).symm

theorem free_positions_nodup (hS64 : S < size_type_mod) {s : circular_buffer T S}
    (h : s.Inv) : s.free_positions.Nodup := by
  rw [free_positions_eq hS64 h]
  apply List.Nodup.map_on _ (List.nodup_range _)
  intro a ha b hb hab
  rw [List.mem_range] at ha hb
  by_contra hne
  rcases Nat.lt_or_gt_of_ne hne with hlt | hlt
  · exact mod_ne_of_lt_of_lt S (s.tail + a) (s.tail + b) (by omega) (by omega) hab
  · exact mod_ne_of_lt_of_lt S (s.tail + b) (s.tail + a) (by omega) (by omega) hab.symm

theorem store_all_of_not_mem (buf : Fin S → T) (ps : List Nat) (vals : List T) (q : Fin S)
    (hq : q.1 ∉ ps) : store_all buf ps vals q = buf q := by
  induction ps generalizing buf vals with
  | nil => cases vals <;> rfl
  | cons p ps ih =>
    cases vals with
    | nil => rfl
    | cons v vs =>
      rw [List.mem_cons, not_or] at hq
      show store_all (store buf p v) ps vs q = buf q
      rw [ih _ _ hq.2]
      unfold store
      split
      · apply Function.update_noteq
        intro e
        exact hq.1 (congrArg Fin.val e)
      · rfl

theorem store_all_at (buf : Fin S → T) (ps : List Nat) (vals : List T) (hnd : ps.Nodup)
    (j : Nat) (q : Fin S) (v : T) (hp : ps[j]? = some q.1) (hv : vals[j]? = some v) :
    store_all buf ps vals q = v := by
  induction ps generalizing buf vals j with
  | nil => simp at hp
  | cons p ps ih =>
    cases vals with
    | nil => simp at hv
    | cons v0 vs =>
      rw [List.nodup_cons] at hnd
      show store_all (store buf p v0) ps vs q = v
      cases j with
      | zero =>
        simp only [List.getElem?_cons_zero, Option.some.injEq] at hp hv
        subst hv
        rw [store_all_of_not_mem _ _ _ _ (by rw [← hp]; exact hnd.1)]
        unfold store
        rw [dif_pos (by rw [hp]; exact q.2)]
        have e : (⟨p, by rw [hp]; exact q.2⟩ : Fin S) = q := Fin.ext hp
        rw [e, Function.update_same]
      | succ j =>
        simp only [List.getElem?_cons_succ] at hp hv
        exact ih _ _ hnd.2 j hp hv

theorem read_all_ok (hS : 0 < S) (s : circular_buffer T S) (ps : List Nat)
    (hps : ∀ p ∈ ps, p < S) :
    s.read_all ps = .ok (ps.map (fun p => s.buf ⟨p % S, Nat.mod_lt _ hS⟩)) := by
  induction ps with
  | nil => rfl
  | cons p ps ih =>
    have hp : p < S := hps p (List.mem_cons_self _ _)
    have e : (⟨p, hp⟩ : Fin S) = ⟨p % S, Nat.mod_lt _ hS⟩ :=
      Fin.ext (Nat.mod_eq_of_lt hp).symm
    unfold read_all
    rw [ih (fun q hq => hps q (List.mem_cons_of_mem _ hq)), deref_of_lt s hp, e]
    rfl

theorem contents_eq_map_used (hS : 0 < S) (hS64 : S < size_type_mod) {s : circular_buffer T S}
    (h : s.Inv) :
    s.contents hS = s.used_positions.map (fun p => s.buf ⟨p % S, Nat.mod_lt _ hS⟩) := by
  rw [used_positions_eq hS64 h, List.map_map]
  unfold contents
  apply List.map_congr_left
  intro i _
  show s.buf ⟨(s.head + i) % S, _⟩ = s.buf ⟨(s.head + i) % S % S, _⟩
  congr 2
  exact (Nat.mod_mod _ _).symm

theorem contents_length (hS : 0 < S) (s : circular_buffer T S) :
    (s.contents hS).length = s.cur_size := by
  simp [contents]

theorem read_round_spec (hS : 0 < S) (hS64 : S < size_type_mod) {s : circular_buffer T S}
    (h : s.Inv) {c : Nat} (hc : c ≤ s.cur_size) :
    (s.read_round c).1 = .ok ((s.contents hS).take c) ∧
      (s.read_round c).2.contents hS = (s.contents hS).drop c ∧
      (s.read_round c).2.Inv ∧ (s.read_round c).2.cur_size = s.cur_size - c := by
  have hh := h.1
  have hcs := h.2.2.1
  have hsz : (s.remove_used_bytes c).cur_size = s.cur_size - c :=
    to_size_type_sub _ _ hc (by omega)
  have hhd : (s.remove_used_bytes c).head = (s.head + c) % S := wrap_once_eq_mod (by omega)
  refine ⟨?_, ?_, Inv_remove_used_bytes hS64 h hc, hsz⟩
  · show s.read_all (s.used_positions.take c) = _
    rw [read_all_ok hS, contents_eq_map_used hS hS64 h, List.map_take]
    intro p hp
    have hp2 := List.mem_of_mem_take hp
    rw [used_positions_eq hS64 h, List.mem_map] at hp2
    obtain ⟨i, _, rfl⟩ := hp2
    exact Nat.mod_lt _ hS
  · show (s.remove_used_bytes c).contents hS = _
    have hsplit : s.cur_size = c + (s.cur_size - c) := by omega
    unfold contents
    rw [hsz]
    conv_rhs => rw [hsplit, List.range_add, List.map_append]
    rw [List.drop_left' (by simp), List.map_map]
    apply List.map_congr_left
    intro i _
    show (s.remove_used_bytes c).buf ⟨((s.remove_used_bytes c).head + i) % S, _⟩
      = s.buf ⟨(s.head + (c + i)) % S, _⟩
    have e : ((s.remove_used_bytes c).head + i) % S = (s.head + (c + i)) % S := by
      rw [hhd, Nat.mod_add_mod, Nat.add_assoc]
    show s.buf ⟨((s.remove_used_bytes c).head + i) % S, _⟩ = s.buf ⟨(s.head + (c + i)) % S, _⟩
    congr 2

theorem write_round_spec (hS : 0 < S) (hS64 : S < size_type_mod) {s : circular_buffer T S}
    (h : s.Inv) {vals : List T} (hv : vals.length ≤ S - s.cur_size) :
    (s.write_round vals).contents hS = s.contents hS ++ vals ∧
      (s.write_round vals).Inv ∧ (s.write_round vals).cur_size = s.cur_size + vals.length := by
  have hh := h.1
  have hcs := h.2.2.1
  have hinv : (s.write_round vals).Inv :=
    Inv_add_used_bytes hS64 (s := { s with buf := store_all s.buf s.free_positions vals }) h hv
  have hsz : (s.write_round vals).cur_size = s.cur_size + vals.length := by
    show (s.cur_size + vals.length) % size_type_mod = _
    exact Nat.mod_eq_of_lt (by omega)
  refine ⟨?_, hinv, hsz⟩
  unfold contents
  rw [hsz, List.range_add, List.map_append, List.map_map]
  congr 1
  · apply List.map_congr_left
    intro i hi
    rw [List.mem_range] at hi
    show store_all s.buf s.free_positions vals ⟨(s.head + i) % S, _⟩
      = s.buf ⟨(s.head + i) % S, _⟩
    apply store_all_of_not_mem
    intro hmem
    exact free_positions_not_occupied hS64 h hmem hi rfl
  · apply List.ext_getElem
    · simp
    · intro j hj1 hj2
      rw [List.getElem_map, List.getElem_range]
      show store_all s.buf s.free_positions vals ⟨(s.head + (s.cur_size + j)) % S, _⟩ = vals[j]
      apply store_all_at _ _ _ (free_positions_nodup hS64 h) j
      · rw [free_positions_eq hS64 h, List.getElem?_map,
          List.getElem?_range (by omega : j < S - s.cur_size)]
        show some ((s.tail + j) % S) = some ((s.head + (s.cur_size + j)) % S)
        rw [h.2.2.2, Nat.mod_add_mod, Nat.add_assoc]
      · exact List.getElem?_eq_getElem hj2

theorem write_rounds_spec (hS : 0 < S) (hS64 : S < size_type_mod) (chunks : List (List T))
    {s : circular_buffer T S} (h : s.Inv) (hv : chunks.flatten.length ≤ S - s.cur_size) :
    (s.write_rounds chunks).contents hS = s.contents hS ++ chunks.flatten ∧
      (s.write_rounds chunks).Inv ∧
      (s.write_rounds chunks).cur_size = s.cur_size + chunks.flatten.length := by
  induction chunks generalizing s with
  | nil => exact ⟨by simp [write_rounds], h, by simp [write_rounds]⟩
  | cons vals rest ih =>
    rw [List.flatten_cons, List.length_append] at hv
    have hfit : vals.length ≤ S - s.cur_size := by omega
    obtain ⟨hc1, hi1, hs1⟩ := write_round_spec hS hS64 h hfit
    obtain ⟨hc2, hi2, hs2⟩ := ih hi1 (by omega)
    refine ⟨?_, hi2, ?_⟩
    · show ((s.write_round vals).write_rounds rest).contents hS = _
      rw [hc2, hc1, List.flatten_cons, List.append_assoc]
    · show ((s.write_round vals).write_rounds rest).cur_size = _
      rw [hs2, hs1, List.flatten_cons, List.length_append, Nat.add_assoc]

theorem read_rounds_spec (hS : 0 < S) (hS64 : S < size_type_mod) (counts : List Nat)
    {s : circular_buffer T S} (h : s.Inv) (hc : counts.sum ≤ s.cur_size) :
    (s.read_rounds counts).1 = .ok ((s.contents hS).take counts.sum) ∧
      (s.read_rounds counts).2.cur_size = s.cur_size - counts.sum := by
  induction counts generalizing s with
  | nil => exact ⟨by simp [read_rounds], by simp [read_rounds]⟩
  | cons c rest ih =>
    rw [List.sum_cons] at hc
    have hfit : c ≤ s.cur_size := by omega
    obtain ⟨hr1, hc1, hi1, hs1⟩ := read_round_spec hS hS64 h hfit
    obtain ⟨hr2, hs2⟩ := ih hi1 (by omega)
    refine ⟨?_, ?_⟩
    · show append_read (s.read_round c).1 (read_rounds (s.read_round c).2 rest).1 = _
      rw [hr1, hr2, hc1, List.sum_cons, List.take_add]
      rfl
    · show (read_rounds (s.read_round c).2 rest).2.cur_size = _
      rw [hs2, hs1, List.sum_cons]
      omega

/-- C1: for every capacity `S ≥ 1` (representable in `size_type`), every state reachable from a
freshly constructed buffer by `fill`, `clear`, `add_used_bytes(n)` with `n ≤ S - size` and
`remove_used_bytes(n)` with `n ≤ size` satisfies `head < S`, `tail < S`, `size ≤ S` and
`tail = (head + size) mod S`. -/
theorem reachable_inv (hS : 0 < S) (hS64 : S < size_type_mod) {s : circular_buffer T S}
    (h : Reachable s) :
    s.head < S ∧ s.tail < S ∧ s.cur_size ≤ S ∧ s.tail = (s.head + s.cur_size) % S := by
  induction h with
  | init buf => exact Inv_init hS buf
  | fill v _ _ => exact Inv_fill hS _ v
  | clear _ _ => exact Inv_clear hS _
  | add_used_bytes n _ hn ih => exact Inv_add_used_bytes hS64 ih hn
  | remove_used_bytes n _ hn ih => exact Inv_remove_used_bytes hS64 ih hn

theorem reachable_inv_witness :
    (0 < 4 ∧ 4 < size_type_mod ∧ Reachable example_buffer) ∧
      example_buffer.head < 4 ∧ example_buffer.tail < 4 ∧ example_buffer.cur_size ≤ 4 ∧
        example_buffer.tail = (example_buffer.head + example_buffer.cur_size) % 4 :=
  ⟨⟨by decide, capacity_four_lt, example_buffer_reachable⟩,
    reachable_inv (by decide) capacity_four_lt example_buffer_reachable⟩

/-- C2: in every state satisfying the cursor invariant, the lengths of the two blocks returned
by `get_free_blocks()` add up to `S - size`. -/
theorem free_blocks_total (hS64 : S < size_type_mod) (s : circular_buffer T S) (h : s.Inv) :
    s.get_free_blocks.1.size + s.get_free_blocks.2.size = S - s.cur_size := by
  have hh := h.1
  have ht := h.2.1
  have hc := h.2.2.1
  by_cases hnf : s.cur_size = S
  · rw [get_free_blocks_full s hnf, hnf]; simp
  · by_cases hlt : s.tail < s.head
    · rw [get_free_blocks_mid hS64 h hnf hlt]
      show s.head - s.tail + 0 = S - s.cur_size
      rcases h.tail_cases with c | c <;> omega
    · by_cases h0 : s.head = 0
      · rw [get_free_blocks_end hS64 h hnf h0]
        show S - s.tail + 0 = S - s.cur_size
        rcases h.tail_cases with c | c <;> omega
      · rw [get_free_blocks_split hS64 h hnf (by omega) h0]
        show S - s.tail + s.head = S - s.cur_size
        rcases h.tail_cases with c | c <;> omega

theorem free_blocks_total_witness :
    (4 < size_type_mod ∧ example_buffer.Inv) ∧
      example_buffer.get_free_blocks.1.size + example_buffer.get_free_blocks.2.size
        = 4 - example_buffer.cur_size :=
  ⟨⟨capacity_four_lt, example_buffer_inv⟩,
    free_blocks_total capacity_four_lt example_buffer example_buffer_inv⟩

/-- C3: in every state satisfying the cursor invariant, the lengths of the two blocks returned
by `get_used_blocks()` add up to `size`. -/
theorem used_blocks_total (hS64 : S < size_type_mod) (s : circular_buffer T S) (h : s.Inv) :
    s.get_used_blocks.1.size + s.get_used_blocks.2.size = s.cur_size := by
  have hh := h.1
  have ht := h.2.1
  have hc := h.2.2.1
  by_cases hne : s.cur_size = 0
  · rw [get_used_blocks_empty s hne, hne]; rfl
  · by_cases hlt : s.head < s.tail
    · rw [get_used_blocks_mid hne hlt]; rfl
    · by_cases h0 : s.tail = 0
      · rw [get_used_blocks_end hS64 h hne h0]
        show S - s.head + 0 = s.cur_size
        rcases h.tail_cases with c | c <;> omega
      · rw [get_used_blocks_split hS64 h hne (by omega) h0]
        show S - s.head + s.tail = s.cur_size
        rcases h.tail_cases with c | c <;> omega

theorem used_blocks_total_witness :
    (4 < size_type_mod ∧ example_wrapped.Inv) ∧
      example_wrapped.get_used_blocks.1.size + example_wrapped.get_used_blocks.2.size
        = example_wrapped.cur_size :=
  ⟨⟨capacity_four_lt, example_wrapped_inv⟩,
    used_blocks_total capacity_four_lt example_wrapped example_wrapped_inv⟩

/-- C4: in every state satisfying the cursor invariant, the positions covered by the first used
block followed by those covered by the second are exactly `(head + i) mod S` for
`i = 0 .. size - 1`, and the element at the `i`-th of these positions is the element `at(i)`
returns. -/
theorem used_blocks_cover_occupied (hS64 : S < size_type_mod) (s : circular_buffer T S)
    (h : s.Inv) :
    s.used_positions = (List.range s.cur_size).map (fun i => (s.head + i) % S) ∧
      ∀ i, i < s.cur_size →
        ∃ p, ∃ hp : p < S, s.used_positions[i]? = some p ∧
          s.deref p = .ok (s.buf ⟨p, hp⟩) ∧ s.at_ i = .ok (s.buf ⟨p, hp⟩) := by
  have hpos := used_positions_eq hS64 h
  refine ⟨hpos, ?_⟩
  intro i hi
  have hp : (s.head + i) % S < S := Nat.mod_lt _ (by have := h.1; omega)
  refine ⟨(s.head + i) % S, hp, ?_, deref_of_lt s hp, ?_⟩
  · rw [hpos, List.getElem?_map, List.getElem?_range hi]; rfl
  · rw [at_eq_deref s h.1 h.2.2.1 hi, deref_of_lt s hp]

theorem used_blocks_cover_occupied_witness :
    (4 < size_type_mod ∧ example_wrapped.Inv) ∧
      (example_wrapped.used_positions
          = (List.range example_wrapped.cur_size).map (fun i => (example_wrapped.head + i) % 4) ∧
        ∀ i, i < example_wrapped.cur_size →
          ∃ p, ∃ hp : p < 4, example_wrapped.used_positions[i]? = some p ∧
            example_wrapped.deref p = .ok (example_wrapped.buf ⟨p, hp⟩) ∧
              example_wrapped.at_ i = .ok (example_wrapped.buf ⟨p, hp⟩)) :=
  ⟨⟨capacity_four_lt, example_wrapped_inv⟩,
    used_blocks_cover_occupied capacity_four_lt example_wrapped example_wrapped_inv⟩

/-- C5: in every state satisfying the cursor invariant, the positions covered by the first free
block followed by those covered by the second are exactly `(tail + j) mod S` for
`j = 0 .. S - size - 1`, and none of them is an occupied position `(head + i) mod S` with
`i < size`. -/
theorem free_blocks_cover_free (hS64 : S < size_type_mod) (s : circular_buffer T S)
    (h : s.Inv) :
    s.free_positions = (List.range (S - s.cur_size)).map (fun j => (s.tail + j) % S) ∧
      ∀ p ∈ s.free_positions, ∀ i, i < s.cur_size → p ≠ (s.head + i) % S := by
  have hpos := free_positions_eq hS64 h
  refine ⟨hpos, ?_⟩
  intro p hp i hi
  exact free_positions_not_occupied hS64 h hp hi

theorem free_blocks_cover_free_witness :
    (4 < size_type_mod ∧ example_buffer.Inv) ∧
      (example_buffer.free_positions
          = (List.range (4 - example_buffer.cur_size)).map
              (fun j => (example_buffer.tail + j) % 4) ∧
        ∀ p ∈ example_buffer.free_positions, ∀ i, i < example_buffer.cur_size →
          p ≠ (example_buffer.head + i) % 4) :=
  ⟨⟨capacity_four_lt, example_buffer_inv⟩,
    free_blocks_cover_free capacity_four_lt example_buffer example_buffer_inv⟩

/-- C6: round trip. For every capacity `S ≥ 1` and every sequence `v` of `S` values, starting
from a freshly constructed buffer, writing `v` in any split into producer rounds
(`get_free_blocks`, store into the first block then the second, `add_used_bytes`) fills the
buffer, and reading it in consumer rounds (`get_used_blocks`, read from the first block then
the second, `remove_used_bytes`) whose counts add up to `S` yields exactly `v`, in order, and
leaves the buffer empty. (The counts of such rounds never exceed the free, respectively used,
length at the time of the round.) -/
theorem round_trip (hS : 0 < S) (hS64 : S < size_type_mod) (buf0 : Fin S → T)
    (v : List T) (hv : v.length = S) (chunks : List (List T)) (hsplit : chunks.flatten = v)
    (counts : List Nat) (hcounts : counts.sum = S) :
    ((init buf0).write_rounds chunks).cur_size = S ∧
      (((init buf0).write_rounds chunks).read_rounds counts).1 = .ok v ∧
      (((init buf0).write_rounds chunks).read_rounds counts).2.empty = true := by
  have h0 : (init buf0).Inv := Inv_init hS buf0
  have hlen : chunks.flatten.length ≤ S - (init buf0).cur_size := by
    rw [hsplit, hv]
    exact Nat.le_refl _
  obtain ⟨hc, hi, hs⟩ := write_rounds_spec hS hS64 chunks h0 hlen
  have hfull : ((init buf0).write_rounds chunks).cur_size = S := by
    rw [hs, hsplit, hv]
    exact Nat.zero_add _
  obtain ⟨hr, he⟩ := read_rounds_spec hS hS64 counts hi (by omega)
  refine ⟨hfull, ?_, ?_⟩
  · rw [hr, hc, hsplit, hcounts]
    show Except.ok (List.take S ([] ++ v)) = Except.ok v
    rw [List.nil_append, List.take_of_length_le (by omega)]
  · unfold empty
    rw [he, hfull, hcounts, Nat.sub_self]
    rfl

theorem round_trip_witness :
    (0 < 4 ∧ 4 < size_type_mod ∧ [1, 2, 3, 4].length = 4 ∧
        [[1, 2], [3], [4]].flatten = [1, 2, 3, 4] ∧ [1, 3].sum = 4) ∧
      (((init (fun _ : Fin 4 => 0)).write_rounds [[1, 2], [3], [4]]).cur_size = 4 ∧
        (((init (fun _ : Fin 4 => 0)).write_rounds [[1, 2], [3], [4]]).read_rounds [1, 3]).1
          = .ok [1, 2, 3, 4] ∧
        (((init (fun _ : Fin 4 => 0)).write_rounds [[1, 2], [3], [4]]).read_rounds
          [1, 3]).2.empty = true) :=
  ⟨⟨by decide, capacity_four_lt, rfl, rfl, rfl⟩,
    round_trip (by decide) capacity_four_lt (fun _ : Fin 4 => 0) [1, 2, 3, 4] rfl
      [[1, 2], [3], [4]] rfl [1, 3] rfl⟩

/-- C7: for every state and every `n`, `at(n)` fails with `std::out_of_range` if and only if
`n ≥ size`; so `at(size())` always fails, and `at(size() - 1)` does not fail when `size() > 0`
(and returns an element when the cursor invariant holds). The other element accessors
`operator[]`, `front` and `back` never report `std::out_of_range`. -/
theorem at_out_of_range_iff (s : circular_buffer T S) (n : Nat) :
    (s.at_ n = .error .out_of_range ↔ n ≥ s.cur_size) ∧
      s.at_ s.size = .error .out_of_range ∧
      (0 < s.size → s.at_ (s.size - 1) ≠ .error .out_of_range) ∧
      (0 < s.size → s.Inv → ∃ x, s.at_ (s.size - 1) = .ok x) ∧
      s.index n ≠ .error .out_of_range ∧
      s.front ≠ .error .out_of_range ∧
      s.back ≠ .error .out_of_range := by
  have hderef : ∀ p, s.deref p ≠ .error .out_of_range := by
    intro p
    unfold deref
    split <;> simp
  have hiff : ∀ m, s.at_ m = .error .out_of_range ↔ m ≥ s.cur_size := by
    intro m
    unfold at_
    by_cases hm : m ≥ s.cur_size
    · simp [hm]
    · simp only [if_neg hm, hm, iff_false]
      exact hderef _
  refine ⟨hiff n, (hiff _).mpr (Nat.le_refl _), ?_, ?_, hderef _, hderef _, ?_⟩
  · intro hpos hfail
    have := (hiff _).mp hfail
    unfold size at hpos
    unfold size at this
    omega
  · intro hpos hinv
    unfold size at hpos
    have hi : s.size - 1 < s.cur_size := by unfold size; omega
    rw [at_eq_deref s hinv.1 hinv.2.2.1 hi]
    exact ⟨_, deref_of_lt s (Nat.mod_lt _ (by have := hinv.1; omega))⟩
  · unfold back
    dsimp only
    split_ifs <;> first | exact hderef _ | exact fun e => by cases e

theorem at_out_of_range_iff_witness :
    (0 < example_wrapped.size ∧ example_wrapped.Inv) ∧
    ((example_wrapped.at_ 3 = .error .out_of_range ↔ 3 ≥ example_wrapped.cur_size) ∧
      example_wrapped.at_ example_wrapped.size = .error .out_of_range ∧
      (0 < example_wrapped.size →
        example_wrapped.at_ (example_wrapped.size - 1) ≠ .error .out_of_range) ∧
      (0 < example_wrapped.size → example_wrapped.Inv →
        ∃ x, example_wrapped.at_ (example_wrapped.size - 1) = .ok x) ∧
      example_wrapped.index 3 ≠ .error .out_of_range ∧
      example_wrapped.front ≠ .error .out_of_range ∧
      example_wrapped.back ≠ .error .out_of_range) :=
  ⟨⟨by decide, example_wrapped_inv⟩, at_out_of_range_iff example_wrapped 3⟩

/-- C8: in every state satisfying the cursor invariant, for `n < size` the single conditional
subtraction of `S` computes `(head + n) mod S`, `at(n)` returns the element stored at that
position and `operator[](n)` returns the same element; `operator[](n)` maps to
`(head + n) mod S` for every `n < S`. -/
theorem at_index_position (s : circular_buffer T S) (h : s.Inv) :
    (∀ n, n < s.cur_size →
      s.slot n = (s.head + n) % S ∧
        ∃ hp : (s.head + n) % S < S,
          s.at_ n = .ok (s.buf ⟨(s.head + n) % S, hp⟩) ∧
            s.index n = .ok (s.buf ⟨(s.head + n) % S, hp⟩)) ∧
    (∀ n, n < S →
      s.slot n = (s.head + n) % S ∧
        ∃ hp : (s.head + n) % S < S, s.index n = .ok (s.buf ⟨(s.head + n) % S, hp⟩)) := by
  have hh := h.1
  have hc := h.2.2.1
  have hidx : ∀ n, n < S →
      s.slot n = (s.head + n) % S ∧
        ∃ hp : (s.head + n) % S < S, s.index n = .ok (s.buf ⟨(s.head + n) % S, hp⟩) := by
    intro n hn
    have hslot : s.slot n = (s.head + n) % S := wrap_once_eq_mod (by omega)
    have hp : (s.head + n) % S < S := Nat.mod_lt _ (by omega)
    refine ⟨hslot, hp, ?_⟩
    unfold index
    rw [hslot, deref_of_lt s hp]
  refine ⟨?_, hidx⟩
  intro n hn
  obtain ⟨hslot, hp, hix⟩ := hidx n (by omega)
  refine ⟨hslot, hp, ?_, hix⟩
  rw [at_eq_deref s hh hc hn, deref_of_lt s hp]

theorem at_index_position_witness :
    example_wrapped.Inv ∧
    ((∀ n, n < example_wrapped.cur_size →
      example_wrapped.slot n = (example_wrapped.head + n) % 4 ∧
        ∃ hp : (example_wrapped.head + n) % 4 < 4,
          example_wrapped.at_ n = .ok (example_wrapped.buf ⟨(example_wrapped.head + n) % 4, hp⟩) ∧
            example_wrapped.index n
              = .ok (example_wrapped.buf ⟨(example_wrapped.head + n) % 4, hp⟩)) ∧
    (∀ n, n < 4 →
      example_wrapped.slot n = (example_wrapped.head + n) % 4 ∧
        ∃ hp : (example_wrapped.head + n) % 4 < 4,
          example_wrapped.index n
            = .ok (example_wrapped.buf ⟨(example_wrapped.head + n) % 4, hp⟩))) :=
  ⟨example_wrapped_inv, at_index_position example_wrapped example_wrapped_inv⟩

/-- C9: in every state satisfying the cursor invariant and for every `n ≤ S - size`,
`add_used_bytes(n)` sets `tail` to `(tail + n) mod S` and `size` to `size + n`, leaves `head`
and the storage unchanged, and leaves `at(i)` unchanged for every `i` below the old size. -/
theorem add_used_bytes_effect (hS64 : S < size_type_mod) (s : circular_buffer T S) (h : s.Inv)
    (n : Nat) (hn : n ≤ S - s.cur_size) :
    (s.add_used_bytes n).tail = (s.tail + n) % S ∧
      (s.add_used_bytes n).cur_size = s.cur_size + n ∧
      (s.add_used_bytes n).head = s.head ∧
      (s.add_used_bytes n).buf = s.buf ∧
      ∀ i, i < s.cur_size → (s.add_used_bytes n).at_ i = s.at_ i := by
  have hh := h.1
  have ht := h.2.1
  have hc := h.2.2.1
  have hsz : (s.add_used_bytes n).cur_size = s.cur_size + n :=
    Nat.mod_eq_of_lt (by omega)
  refine ⟨wrap_once_eq_mod (by omega), hsz, rfl, rfl, ?_⟩
  intro i hi
  have hi2 : i < (s.add_used_bytes n).cur_size := by omega
  rw [at_eq_deref s hh hc hi,
    at_eq_deref (s.add_used_bytes n) hh (Inv_add_used_bytes hS64 h hn).2.2.1 hi2]
  rfl

theorem add_used_bytes_effect_witness :
    (4 < size_type_mod ∧ example_buffer.Inv ∧ 2 ≤ 4 - example_buffer.cur_size) ∧
      ((example_buffer.add_used_bytes 2).tail = (example_buffer.tail + 2) % 4 ∧
        (example_buffer.add_used_bytes 2).cur_size = example_buffer.cur_size + 2 ∧
        (example_buffer.add_used_bytes 2).head = example_buffer.head ∧
        (example_buffer.add_used_bytes 2).buf = example_buffer.buf ∧
        ∀ i, i < example_buffer.cur_size →
          (example_buffer.add_used_bytes 2).at_ i = example_buffer.at_ i) :=
  ⟨⟨capacity_four_lt, example_buffer_inv, by decide⟩,
    add_used_bytes_effect capacity_four_lt example_buffer example_buffer_inv 2 (by decide)⟩

/-- C10: in every state satisfying the cursor invariant and for every `n ≤ size`,
`remove_used_bytes(n)` sets `head` to `(head + n) mod S` and `size` to `size - n`, leaves
`tail` and the storage unchanged, and the new `at(i)` is the old `at(i + n)` for every
`i < size - n`. -/
theorem remove_used_bytes_effect (hS64 : S < size_type_mod) (s : circular_buffer T S)
    (h : s.Inv) (n : Nat) (hn : n ≤ s.cur_size) :
    (s.remove_used_bytes n).head = (s.head + n) % S ∧
      (s.remove_used_bytes n).cur_size = s.cur_size - n ∧
      (s.remove_used_bytes n).tail = s.tail ∧
      (s.remove_used_bytes n).buf = s.buf ∧
      ∀ i, i < s.cur_size - n → (s.remove_used_bytes n).at_ i = s.at_ (i + n) := by
  have hh := h.1
  have ht := h.2.1
  have hc := h.2.2.1
  have hsz : (s.remove_used_bytes n).cur_size = s.cur_size - n :=
    to_size_type_sub _ _ hn (by omega)
  have hhd : (s.remove_used_bytes n).head = (s.head + n) % S := wrap_once_eq_mod (by omega)
  have hinv := Inv_remove_used_bytes hS64 h hn
  refine ⟨hhd, hsz, rfl, rfl, ?_⟩
  intro i hi
  have hi2 : i < (s.remove_used_bytes n).cur_size := by omega
  rw [at_eq_deref s hh hc (by omega : i + n < s.cur_size),
    at_eq_deref (s.remove_used_bytes n) hinv.1 hinv.2.2.1 hi2, hhd, Nat.mod_add_mod]
  have e : s.head + n + i = s.head + (i + n) := by omega
  rw [e]
  rfl

theorem remove_used_bytes_effect_witness :
    (4 < size_type_mod ∧ example_wrapped.Inv ∧ 2 ≤ example_wrapped.cur_size) ∧
      ((example_wrapped.remove_used_bytes 2).head = (example_wrapped.head + 2) % 4 ∧
        (example_wrapped.remove_used_bytes 2).cur_size = example_wrapped.cur_size - 2 ∧
        (example_wrapped.remove_used_bytes 2).tail = example_wrapped.tail ∧
        (example_wrapped.remove_used_bytes 2).buf = example_wrapped.buf ∧
        ∀ i, i < example_wrapped.cur_size - 2 →
          (example_wrapped.remove_used_bytes 2).at_ i = example_wrapped.at_ (i + 2)) :=
  ⟨⟨capacity_four_lt, example_wrapped_inv, by decide⟩,
    remove_used_bytes_effect capacity_four_lt example_wrapped example_wrapped_inv 2 (by decide)⟩

/-! ## Bulk mutation -/

theorem foldl_update_apply (v : T) (l : List (Fin S)) (b : Fin S → T) (j : Fin S) :
    (l.foldl (fun b i => Function.update b i v) b) j = if j ∈ l then v else b j := by
  induction l generalizing b with
  | nil => simp
  | cons i l ih =>
    rw [List.foldl_cons, ih]
    by_cases hjl : j ∈ l
    · simp [hjl]
    · by_cases hji : j = i
      · subst hji
        simp [hjl]
      · simp [hjl, hji, Function.update_noteq hji]

theorem fill_buf (s : circular_buffer T S) (v : T) (j : Fin S) : (s.fill v).buf j = v := by
  show ((List.finRange S).foldl (fun b i => Function.update b i v) s.buf) j = v
  rw [foldl_update_apply, if_pos (List.mem_finRange j)]

/-- C11: for every state, reachable or not, and every value `v`, after `fill(v)` the member
`size()` returns `S`, `head = tail = 0`, every physical slot holds `v`, and `at(i)` returns `v`
for every `i < S`. -/
theorem fill_effect (s : circular_buffer T S) (v : T) :
    (s.fill v).size = S ∧ (s.fill v).head = 0 ∧ (s.fill v).tail = 0 ∧
      (∀ j : Fin S, (s.fill v).buf j = v) ∧
      ∀ i, i < S → (s.fill v).at_ i = .ok v := by
  refine ⟨rfl, rfl, rfl, fill_buf s v, ?_⟩
  intro i hi
  have hsz : (s.fill v).cur_size = S := rfl
  have hhd : (s.fill v).head = 0 := rfl
  rw [at_eq_deref (s.fill v) (by rw [hhd]; omega) (by rw [hsz]) (by rw [hsz]; exact hi),
    deref_of_lt _ (Nat.mod_lt _ (by omega)), fill_buf]

theorem fill_effect_witness :
    ((example_corrupt.fill 5).size = 4 ∧ (example_corrupt.fill 5).head = 0 ∧
      (example_corrupt.fill 5).tail = 0 ∧
      (∀ j : Fin 4, (example_corrupt.fill 5).buf j = 5) ∧
      ∀ i, i < 4 → (example_corrupt.fill 5).at_ i = .ok 5) ∧
    (example_corrupt.fill 5).at_ 3 = .ok 5 :=
  ⟨fill_effect example_corrupt 5, (fill_effect example_corrupt 5).2.2.2.2 3 (by decide)⟩

/-- C12: for every state, after `clear()` the member `empty()` returns true, `size()` returns
0, `head = tail = 0`, and every physical slot holds the value it held before the call. -/
theorem clear_effect (s : circular_buffer T S) :
    s.clear.empty = true ∧ s.clear.size = 0 ∧ s.clear.head = 0 ∧ s.clear.tail = 0 ∧
      ∀ j : Fin S, s.clear.buf j = s.buf j :=
  ⟨rfl, rfl, rfl, rfl, fun _ => rfl⟩

/-- C13: free-block policy. In every state satisfying the cursor invariant, `get_free_blocks()`
returns two null blocks if `size = S`; otherwise, if `tail ≥ head`, the first block starts at
`tail` with length `S - tail` and the second is `(0, head)` when `head > 0` and null when
`head = 0`; if `tail < head`, the first block starts at `tail` with length `head - tail` and
the second is null. -/
theorem free_block_policy (hS64 : S < size_type_mod) (s : circular_buffer T S) (h : s.Inv) :
    (s.cur_size = S → s.get_free_blocks = (⟨none, 0⟩, ⟨none, 0⟩)) ∧
      (s.cur_size ≠ S → s.tail ≥ s.head → 0 < s.head →
        s.get_free_blocks = (⟨some s.tail, S - s.tail⟩, ⟨some 0, s.head⟩)) ∧
      (s.cur_size ≠ S → s.tail ≥ s.head → s.head = 0 →
        s.get_free_blocks = (⟨some s.tail, S - s.tail⟩, ⟨none, 0⟩)) ∧
      (s.cur_size ≠ S → s.tail < s.head →
        s.get_free_blocks = (⟨some s.tail, s.head - s.tail⟩, ⟨none, 0⟩)) := by
  refine ⟨get_free_blocks_full s, ?_, ?_, ?_⟩
  · intro hnf hge h0
    exact get_free_blocks_split hS64 h hnf hge (by omega)
  · intro hnf _ h0
    exact get_free_blocks_end hS64 h hnf h0
  · intro hnf hlt
    exact get_free_blocks_mid hS64 h hnf hlt

theorem free_block_policy_witness :
    (4 < size_type_mod ∧ example_buffer.Inv ∧ example_buffer.cur_size ≠ 4 ∧
        example_buffer.tail ≥ example_buffer.head ∧ 0 < example_buffer.head) ∧
      example_buffer.get_free_blocks
        = (⟨some example_buffer.tail, 4 - example_buffer.tail⟩, ⟨some 0, example_buffer.head⟩) :=
  ⟨⟨capacity_four_lt, example_buffer_inv, by decide, by decide, by decide⟩,
    (free_block_policy capacity_four_lt example_buffer example_buffer_inv).2.1
      (by decide) (by decide) (by decide)⟩

/-- C14: used-block policy. In every state satisfying the cursor invariant, `get_used_blocks()`
returns two null blocks if `size = 0`; otherwise, if `head < tail`, the first block starts at
`head` with length `tail - head` and the second is null; if `head ≥ tail`, the first block
starts at `head` with length `S - head` and the second is `(0, tail)` when `tail > 0` and null
when `tail = 0`. -/
theorem used_block_policy (hS64 : S < size_type_mod) (s : circular_buffer T S) (h : s.Inv) :
    (s.cur_size = 0 → s.get_used_blocks = (⟨none, 0⟩, ⟨none, 0⟩)) ∧
      (s.cur_size ≠ 0 → s.head < s.tail →
        s.get_used_blocks = (⟨some s.head, s.tail - s.head⟩, ⟨none, 0⟩)) ∧
      (s.cur_size ≠ 0 → s.head ≥ s.tail → 0 < s.tail →
        s.get_used_blocks = (⟨some s.head, S - s.head⟩, ⟨some 0, s.tail⟩)) ∧
      (s.cur_size ≠ 0 → s.head ≥ s.tail → s.tail = 0 →
        s.get_used_blocks = (⟨some s.head, S - s.head⟩, ⟨none, 0⟩)) := by
  refine ⟨get_used_blocks_empty s, ?_, ?_, ?_⟩
  · intro hne hlt
    have hc := h.2.2.1
    have e : s.cur_size = s.tail - s.head := by
      rcases h.tail_cases with c | c <;> omega
    rw [get_used_blocks_mid hne hlt, e]
  · intro hne hge h0
    exact get_used_blocks_split hS64 h hne hge (by omega)
  · intro hne _ h0
    exact get_used_blocks_end hS64 h hne h0

theorem used_block_policy_witness :
    (4 < size_type_mod ∧ example_wrapped.Inv ∧ example_wrapped.cur_size ≠ 0 ∧
        example_wrapped.head ≥ example_wrapped.tail ∧ 0 < example_wrapped.tail) ∧
      example_wrapped.get_used_blocks
        = (⟨some example_wrapped.head, 4 - example_wrapped.head⟩,
            ⟨some 0, example_wrapped.tail⟩) :=
  ⟨⟨capacity_four_lt, example_wrapped_inv, by decide, by decide, by decide⟩,
    (used_block_policy capacity_four_lt example_wrapped example_wrapped_inv).2.2.1
      (by decide) (by decide) (by decide)⟩

/-! ## Scenarios -/

/-- C15: wrap correctness. For every capacity `C` and every `k` with `2 ≤ k ≤ C - 1`, after
`add_used_bytes(C - 1)`, `remove_used_bytes(k)`, `add_used_bytes(k)` on a freshly constructed
buffer, `get_used_blocks()` returns two non-empty blocks: the first starts at position `k` with
length `C - k`, so its last element is at position `C - 1`, and the second starts at position
0 with length `k - 1`. -/
theorem wrap_correctness {C : Nat} (hC64 : C < size_type_mod) (buf0 : Fin C → T) (k : Nat)
    (hk2 : 2 ≤ k) (hk : k ≤ C - 1) :
    ((((init buf0).add_used_bytes (C - 1)).remove_used_bytes k).add_used_bytes k).get_used_blocks
        = (⟨some k, C - k⟩, ⟨some 0, k - 1⟩) ∧
      0 < C - k ∧ 0 < k - 1 ∧ k + (C - k) - 1 = C - 1 := by
  have hC : 0 < C := by omega
  have h1 : ((init buf0).add_used_bytes (C - 1)).Inv :=
    Inv_add_used_bytes hC64 (Inv_init hC buf0) (by show C - 1 ≤ C - 0; omega)
  have hs1 : ((init buf0).add_used_bytes (C - 1)).cur_size = C - 1 := by
    show (0 + (C - 1)) % size_type_mod = C - 1
    rw [Nat.zero_add]
    exact Nat.mod_eq_of_lt (by omega)
  have ht1 : ((init buf0).add_used_bytes (C - 1)).tail = C - 1 := by
    show wrap_once C (0 + (C - 1)) = C - 1
    unfold wrap_once
    rw [if_neg (by omega)]
    omega
  have hk1 : k ≤ ((init buf0).add_used_bytes (C - 1)).cur_size := by rw [hs1]; exact hk
  have h2 : (((init buf0).add_used_bytes (C - 1)).remove_used_bytes k).Inv :=
    Inv_remove_used_bytes hC64 h1 hk1
  have hs2 : (((init buf0).add_used_bytes (C - 1)).remove_used_bytes k).cur_size
      = C - 1 - k := by
    show to_size_type ((((init buf0).add_used_bytes (C - 1)).cur_size : Int) - (k : Int)) = _
    rw [hs1]
    exact to_size_type_sub _ _ hk (by omega)
  have hh2 : (((init buf0).add_used_bytes (C - 1)).remove_used_bytes k).head = k := by
    show wrap_once C (0 + k) = k
    unfold wrap_once
    rw [if_neg (by omega)]
    omega
  have ht2 : (((init buf0).add_used_bytes (C - 1)).remove_used_bytes k).tail = C - 1 := ht1
  have hk3 : k ≤ C - (((init buf0).add_used_bytes (C - 1)).remove_used_bytes k).cur_size := by
    rw [hs2]; omega
  have h3 := Inv_add_used_bytes hC64 h2 hk3
  have hs3 : ((((init buf0).add_used_bytes (C - 1)).remove_used_bytes k).add_used_bytes
      k).cur_size = C - 1 := by
    show ((((init buf0).add_used_bytes (C - 1)).remove_used_bytes k).cur_size + k)
      % size_type_mod = C - 1
    rw [hs2, Nat.mod_eq_of_lt (by omega)]
    omega
  have hh3 : ((((init buf0).add_used_bytes (C - 1)).remove_used_bytes k).add_used_bytes
      k).head = k := hh2
  have ht3 : ((((init buf0).add_used_bytes (C - 1)).remove_used_bytes k).add_used_bytes
      k).tail = k - 1 := by
    show wrap_once C ((((init buf0).add_used_bytes (C - 1)).remove_used_bytes k).tail + k)
      = k - 1
    rw [ht2]
    unfold wrap_once
    rw [if_pos (by omega)]
    omega
  refine ⟨?_, by omega, by omega, by omega⟩
  rw [get_used_blocks_split hC64 h3 (by rw [hs3]; omega) (by rw [ht3, hh3]; omega)
    (by rw [ht3]; omega), hh3, ht3]

theorem wrap_correctness_witness :
    (4 < size_type_mod ∧ 2 ≤ 2 ∧ 2 ≤ 4 - 1) ∧
      ((((init (fun i : Fin 4 => (i : Nat) + 10)).add_used_bytes (4 - 1)).remove_used_bytes
          2).add_used_bytes 2).get_used_blocks = (⟨some 2, 4 - 2⟩, ⟨some 0, 2 - 1⟩) ∧
      0 < 4 - 2 ∧ 0 < 2 - 1 ∧ 2 + (4 - 2) - 1 = 4 - 1 :=
  ⟨⟨capacity_four_lt, by decide, by decide⟩,
    wrap_correctness capacity_four_lt (fun i : Fin 4 => (i : Nat) + 10) 2 (by decide)
      (by decide)⟩

/-- C16: worked example with capacity 4. On a freshly constructed buffer `get_free_blocks()`
returns one block of length 4 and a null second block; after `add_used_bytes(3)`,
`get_used_blocks()` returns one block of length 3 starting at position 0 and a null second
block; after `remove_used_bytes(2)`, `get_used_blocks()` returns one block of length 1, and
`get_free_blocks()` returns a first block starting at `tail`, position 3, with length 1 and a
second block starting at position 0 with length 2. -/
theorem worked_example (buf0 : Fin 4 → T) :
    (init buf0).get_free_blocks = (⟨some 0, 4⟩, ⟨none, 0⟩) ∧
      ((init buf0).add_used_bytes 3).get_used_blocks = (⟨some 0, 3⟩, ⟨none, 0⟩) ∧
      (((init buf0).add_used_bytes 3).remove_used_bytes 2).get_used_blocks
        = (⟨some 2, 1⟩, ⟨none, 0⟩) ∧
      (((init buf0).add_used_bytes 3).remove_used_bytes 2).tail = 3 ∧
      (((init buf0).add_used_bytes 3).remove_used_bytes 2).get_free_blocks
        = (⟨some 3, 1⟩, ⟨some 0, 2⟩) := by
  refine ⟨?_, ?_, ?_, ?_, ?_⟩ <;> rfl

/-! ## Ends of the occupied region -/

theorem back_eq_deref (s : circular_buffer T S) (hpos : 0 < s.cur_size) :
    s.back = s.deref (wrap_once S (s.head + (s.cur_size - 1))) := by
  have key : (if (s.head : Int) + (s.cur_size : Int) - 1 ≥ (S : Int)
      then (s.head : Int) + (s.cur_size : Int) - 1 - (S : Int)
      else (s.head : Int) + (s.cur_size : Int) - 1)
      = ((wrap_once S (s.head + (s.cur_size - 1)) : Nat) : Int) := by
    unfold wrap_once
    split_ifs <;> omega
  unfold back
  dsimp only
  rw [key, if_neg (by omega), Int.toNat_ofNat]

/-- C17: in every state satisfying the cursor invariant with `size > 0`, `front()` returns the
same element as `at(0)`, the one at position `head`, and `back()` returns the same element as
`at(size - 1)`, the one at position `(head + size - 1) mod S`. -/
theorem front_back_position (s : circular_buffer T S) (h : s.Inv) (hpos : 0 < s.cur_size) :
    ∃ hp : s.head < S, ∃ hq : (s.head + s.cur_size - 1) % S < S,
      s.front = .ok (s.buf ⟨s.head, hp⟩) ∧ s.at_ 0 = .ok (s.buf ⟨s.head, hp⟩) ∧
      s.back = .ok (s.buf ⟨(s.head + s.cur_size - 1) % S, hq⟩) ∧
      s.at_ (s.cur_size - 1) = .ok (s.buf ⟨(s.head + s.cur_size - 1) % S, hq⟩) := by
  have hh := h.1
  have hc := h.2.2.1
  have hq : (s.head + s.cur_size - 1) % S < S := Nat.mod_lt _ (by omega)
  have e : s.head + (s.cur_size - 1) = s.head + s.cur_size - 1 := by omega
  have hlast : s.deref (wrap_once S (s.head + (s.cur_size - 1)))
      = .ok (s.buf ⟨(s.head + s.cur_size - 1) % S, hq⟩) := by
    rw [wrap_once_eq_mod (by omega)]
    simp only [e]
    exact deref_of_lt s hq
  refine ⟨hh, hq, deref_of_lt s hh, ?_, ?_, ?_⟩
  · have e0 : (s.head + 0) % S = s.head := Nat.mod_eq_of_lt hh
    rw [at_eq_deref s hh hc hpos]
    simp only [e0]
    exact deref_of_lt s hh
  · rw [back_eq_deref s hpos, hlast]
  · unfold at_ slot
    rw [if_neg (by omega), hlast]

theorem front_back_position_witness :
    (example_wrapped.Inv ∧ 0 < example_wrapped.cur_size) ∧
      ∃ hp : example_wrapped.head < 4,
        ∃ hq : (example_wrapped.head + example_wrapped.cur_size - 1) % 4 < 4,
          example_wrapped.front = .ok (example_wrapped.buf ⟨example_wrapped.head, hp⟩) ∧
          example_wrapped.at_ 0 = .ok (example_wrapped.buf ⟨example_wrapped.head, hp⟩) ∧
          example_wrapped.back
            = .ok (example_wrapped.buf
                ⟨(example_wrapped.head + example_wrapped.cur_size - 1) % 4, hq⟩) ∧
          example_wrapped.at_ (example_wrapped.cur_size - 1)
            = .ok (example_wrapped.buf
                ⟨(example_wrapped.head + example_wrapped.cur_size - 1) % 4, hq⟩) :=
  ⟨⟨example_wrapped_inv, by decide⟩,
    front_back_position example_wrapped example_wrapped_inv (by decide)⟩

/-! ## Commits beyond the contract -/

/-- C18, as stated, fails: in the capacity-4 buffer with `head = 0`, `tail = 3`, `size = 3`
the call `add_used_bytes(2)` exceeds the free space `4 - 3 = 1`, and the resulting state
`head = 0`, `tail = 1`, `size = 5` still satisfies `tail = (head + size) mod 4`. -/
theorem add_used_bytes_beyond_contract_counterexample :
    example_three.Inv ∧ 2 > 4 - example_three.cur_size ∧
      (example_three.add_used_bytes 2).head = 0 ∧
      (example_three.add_used_bytes 2).tail = 1 ∧
      (example_three.add_used_bytes 2).cur_size = 5 ∧
      (example_three.add_used_bytes 2).tail
        = ((example_three.add_used_bytes 2).head + (example_three.add_used_bytes 2).cur_size)
            % 4 := by
  decide

/-- C18, amended: for every state satisfying the cursor invariant and every `n > S - size`
with `size + n` representable in `size_type`, the state after `add_used_bytes(n)` has
`size = old size + n > S`, so it breaks the cursor invariant in its bound `size ≤ S`. -/
theorem add_used_bytes_beyond_contract (s : circular_buffer T S) (h : s.Inv) (n : Nat)
    (hn : n > S - s.cur_size) (hfit : s.cur_size + n < size_type_mod) :
    (s.add_used_bytes n).cur_size = s.cur_size + n ∧
      S < (s.add_used_bytes n).cur_size ∧
      ¬ (s.add_used_bytes n).Inv := by
  have hc := h.2.2.1
  have hsz : (s.add_used_bytes n).cur_size = s.cur_size + n := Nat.mod_eq_of_lt hfit
  have hbig : S < (s.add_used_bytes n).cur_size := by rw [hsz]; omega
  exact ⟨hsz, hbig, fun hinv => absurd hinv.2.2.1 (by omega)⟩

theorem add_used_bytes_beyond_contract_witness :
    (example_three.Inv ∧ 2 > 4 - example_three.cur_size ∧
        example_three.cur_size + 2 < size_type_mod) ∧
      ((example_three.add_used_bytes 2).cur_size = example_three.cur_size + 2 ∧
        4 < (example_three.add_used_bytes 2).cur_size ∧
        ¬ (example_three.add_used_bytes 2).Inv) :=
  ⟨⟨by decide, by decide, by decide⟩,
    add_used_bytes_beyond_contract example_three (by decide) 2 (by decide) (by decide)⟩

/-! ## Shape and placement of the returned blocks -/

/-- C19: in every state satisfying the cursor invariant, the first block of
`get_free_blocks()` has length 0 if and only if `size = S`, the first block of
`get_used_blocks()` has length 0 if and only if `size = 0`, and in neither pair is the second
block non-empty while the first is empty. -/
theorem first_block_carries_progress (hS64 : S < size_type_mod) (s : circular_buffer T S)
    (h : s.Inv) :
    (s.get_free_blocks.1.size = 0 ↔ s.cur_size = S) ∧
      (s.get_used_blocks.1.size = 0 ↔ s.cur_size = 0) ∧
      (s.get_free_blocks.1.size = 0 → s.get_free_blocks.2.size = 0) ∧
      (s.get_used_blocks.1.size = 0 → s.get_used_blocks.2.size = 0) := by
  have hh := h.1
  have ht := h.2.1
  have hc := h.2.2.1
  have hfree : (s.get_free_blocks.1.size = 0 ↔ s.cur_size = S) ∧
      (s.get_free_blocks.1.size = 0 → s.get_free_blocks.2.size = 0) := by
    by_cases hnf : s.cur_size = S
    · rw [get_free_blocks_full s hnf]
      exact ⟨⟨fun _ => hnf, fun _ => rfl⟩, fun _ => rfl⟩
    · by_cases hlt : s.tail < s.head
      · rw [get_free_blocks_mid hS64 h hnf hlt]
        exact ⟨⟨fun e => absurd (show s.head - s.tail = 0 from e) (by omega),
          fun e => absurd e hnf⟩, fun _ => rfl⟩
      · by_cases h0 : s.head = 0
        · rw [get_free_blocks_end hS64 h hnf h0]
          exact ⟨⟨fun e => absurd (show S - s.tail = 0 from e) (by omega),
            fun e => absurd e hnf⟩, fun _ => rfl⟩
        · rw [get_free_blocks_split hS64 h hnf (by omega) h0]
          exact ⟨⟨fun e => absurd (show S - s.tail = 0 from e) (by omega),
            fun e => absurd e hnf⟩, fun e => absurd (show S - s.tail = 0 from e) (by omega)⟩
  have hused : (s.get_used_blocks.1.size = 0 ↔ s.cur_size = 0) ∧
      (s.get_used_blocks.1.size = 0 → s.get_used_blocks.2.size = 0) := by
    by_cases hne : s.cur_size = 0
    · rw [get_used_blocks_empty s hne]
      exact ⟨⟨fun _ => hne, fun _ => rfl⟩, fun _ => rfl⟩
    · by_cases hlt : s.head < s.tail
      · rw [get_used_blocks_mid hne hlt]
        exact ⟨⟨fun e => absurd (show s.cur_size = 0 from e) hne,
          fun e => absurd e hne⟩, fun _ => rfl⟩
      · by_cases h0 : s.tail = 0
        · rw [get_used_blocks_end hS64 h hne h0]
          exact ⟨⟨fun e => absurd (show S - s.head = 0 from e) (by omega),
            fun e => absurd e hne⟩, fun _ => rfl⟩
        · rw [get_used_blocks_split hS64 h hne (by omega) h0]
          exact ⟨⟨fun e => absurd (show S - s.head = 0 from e) (by omega),
            fun e => absurd e hne⟩, fun e => absurd (show S - s.head = 0 from e) (by omega)⟩
  exact ⟨hfree.1, hused.1, hfree.2, hused.2⟩

theorem first_block_carries_progress_witness :
    (4 < size_type_mod ∧ example_wrapped.Inv) ∧
      ((example_wrapped.get_free_blocks.1.size = 0 ↔ example_wrapped.cur_size = 4) ∧
        (example_wrapped.get_used_blocks.1.size = 0 ↔ example_wrapped.cur_size = 0) ∧
        (example_wrapped.get_free_blocks.1.size = 0 →
          example_wrapped.get_free_blocks.2.size = 0) ∧
        (example_wrapped.get_used_blocks.1.size = 0 →
          example_wrapped.get_used_blocks.2.size = 0)) :=
  ⟨⟨capacity_four_lt, example_wrapped_inv⟩,
    first_block_carries_progress capacity_four_lt example_wrapped example_wrapped_inv⟩

theorem block_positions_some (p n : Nat) :
    block_positions ⟨some p, n⟩ = (List.range n).map (fun j => p + j) := rfl

theorem block_positions_none (n : Nat) : block_positions ⟨none, n⟩ = [] := rfl

theorem free_blocks_inside (hS64 : S < size_type_mod) {s : circular_buffer T S} (h : s.Inv) :
    (∀ b, b = s.get_free_blocks.1 ∨ b = s.get_free_blocks.2 → b.size ≠ 0 →
        ∃ p, b.data = some p ∧ p + b.size ≤ S) ∧
      (∀ p, p ∈ block_positions s.get_free_blocks.1 →
        p ∉ block_positions s.get_free_blocks.2) ∧
      (∀ d ∈ s.free_block_differences, 0 ≤ d) ∧
      s.free_block_differences.map Int.toNat
        = [s.get_free_blocks.1.size, s.get_free_blocks.2.size].take
            s.free_block_differences.length := by
  have hh := h.1
  have ht := h.2.1
  have hc := h.2.2.1
  unfold free_block_differences
  by_cases hnf : s.cur_size = S
  · rw [get_free_blocks_full s hnf, if_pos hnf]
    refine ⟨?_, ?_, ?_, rfl⟩
    · rintro b (rfl | rfl) hb <;> exact absurd rfl hb
    · intro p hp; simp [block_positions] at hp
    · intro d hd; simp at hd
  · by_cases hlt : s.tail < s.head
    · rw [get_free_blocks_mid hS64 h hnf hlt, if_neg hnf, if_neg (by omega)]
      refine ⟨?_, ?_, ?_, ?_⟩
      · rintro b (rfl | rfl) hb
        · exact ⟨s.tail, rfl, by show s.tail + (s.head - s.tail) ≤ S; omega⟩
        · exact absurd rfl hb
      · intro p _; simp [block_positions]
      · intro d hd
        simp only [List.mem_singleton] at hd
        omega
      · show [((s.head : Int) - (s.tail : Int)).toNat] = [s.head - s.tail]
        congr 1
        omega
    · by_cases h0 : s.head = 0
      · rw [get_free_blocks_end hS64 h hnf h0, if_neg hnf, if_pos (by omega)]
        refine ⟨?_, ?_, ?_, ?_⟩
        · rintro b (rfl | rfl) hb
          · exact ⟨s.tail, rfl, by show s.tail + (S - s.tail) ≤ S; omega⟩
          · exact absurd rfl hb
        · intro p _; simp [block_positions]
        · intro d hd
          simp only [List.mem_cons, List.mem_singleton, List.not_mem_nil, or_false] at hd
          rcases hd with rfl | rfl <;> omega
        · have e1 : ((S : Int) - (s.tail : Int)).toNat = S - s.tail := by omega
          have e2 : ((s.head : Int) - 0).toNat = 0 := by omega
          show [((S : Int) - (s.tail : Int)).toNat, ((s.head : Int) - 0).toNat]
            = [S - s.tail, 0]
          rw [e1, e2]
      · rw [get_free_blocks_split hS64 h hnf (by omega) h0, if_neg hnf, if_pos (by omega)]
        refine ⟨?_, ?_, ?_, ?_⟩
        · rintro b (rfl | rfl) hb
          · exact ⟨s.tail, rfl, by show s.tail + (S - s.tail) ≤ S; omega⟩
          · exact ⟨0, rfl, by show 0 + s.head ≤ S; omega⟩
        · intro p hp hp2
          rw [block_positions_some, List.mem_map] at hp hp2
          obtain ⟨j, _, rfl⟩ := hp
          obtain ⟨i, hi, e⟩ := hp2
          rw [List.mem_range] at hi
          omega
        · intro d hd
          simp only [List.mem_cons, List.mem_singleton, List.not_mem_nil, or_false] at hd
          rcases hd with rfl | rfl <;> omega
        · have e1 : ((S : Int) - (s.tail : Int)).toNat = S - s.tail := by omega
          have e2 : ((s.head : Int) - 0).toNat = s.head := by omega
          show [((S : Int) - (s.tail : Int)).toNat, ((s.head : Int) - 0).toNat]
            = [S - s.tail, s.head]
          rw [e1, e2]

theorem used_blocks_inside (hS64 : S < size_type_mod) {s : circular_buffer T S} (h : s.Inv) :
    (∀ b, b = s.get_used_blocks.1 ∨ b = s.get_used_blocks.2 → b.size ≠ 0 →
        ∃ p, b.data = some p ∧ p + b.size ≤ S) ∧
      (∀ p, p ∈ block_positions s.get_used_blocks.1 →
        p ∉ block_positions s.get_used_blocks.2) ∧
      (∀ d ∈ s.used_block_differences, 0 ≤ d) ∧
      s.used_block_differences.map Int.toNat
        = [s.get_used_blocks.1.size, s.get_used_blocks.2.size].take
            s.used_block_differences.length := by
  have hh := h.1
  have ht := h.2.1
  have hc := h.2.2.1
  unfold used_block_differences
  by_cases hne : s.cur_size = 0
  · rw [get_used_blocks_empty s hne, if_pos hne]
    refine ⟨?_, ?_, ?_, rfl⟩
    · rintro b (rfl | rfl) hb <;> exact absurd rfl hb
    · intro p hp; simp [block_positions] at hp
    · intro d hd; simp at hd
  · by_cases hlt : s.head < s.tail
    · rw [get_used_blocks_mid hne hlt, if_neg hne, if_pos hlt]
      refine ⟨?_, ?_, ?_, rfl⟩
      · rintro b (rfl | rfl) hb
        · refine ⟨s.head, rfl, ?_⟩
          show s.head + s.cur_size ≤ S
          rcases h.tail_cases with c | c <;> omega
        · exact absurd rfl hb
      · intro p _; simp [block_positions]
      · intro d hd; simp at hd
    · by_cases h0 : s.tail = 0
      · rw [get_used_blocks_end hS64 h hne h0, if_neg hne, if_neg hlt]
        refine ⟨?_, ?_, ?_, ?_⟩
        · rintro b (rfl | rfl) hb
          · exact ⟨s.head, rfl, by show s.head + (S - s.head) ≤ S; omega⟩
          · exact absurd rfl hb
        · intro p _; simp [block_positions]
        · intro d hd
          simp only [List.mem_cons, List.mem_singleton, List.not_mem_nil, or_false] at hd
          rcases hd with rfl | rfl <;> omega
        · have e1 : ((S : Int) - (s.head : Int)).toNat = S - s.head := by omega
          have e2 : ((s.tail : Int) - 0).toNat = 0 := by omega
          show [((S : Int) - (s.head : Int)).toNat, ((s.tail : Int) - 0).toNat]
            = [S - s.head, 0]
          rw [e1, e2]
      · rw [get_used_blocks_split hS64 h hne (by omega) h0, if_neg hne, if_neg hlt]
        refine ⟨?_, ?_, ?_, ?_⟩
        · rintro b (rfl | rfl) hb
          · exact ⟨s.head, rfl, by show s.head + (S - s.head) ≤ S; omega⟩
          · exact ⟨0, rfl, by show 0 + s.tail ≤ S; omega⟩
        · intro p hp hp2
          rw [block_positions_some, List.mem_map] at hp hp2
          obtain ⟨j, _, rfl⟩ := hp
          obtain ⟨i, hi, e⟩ := hp2
          rw [List.mem_range] at hi
          omega
        · intro d hd
          simp only [List.mem_cons, List.mem_singleton, List.not_mem_nil, or_false] at hd
          rcases hd with rfl | rfl <;> omega
        · have e1 : ((S : Int) - (s.head : Int)).toNat = S - s.head := by omega
          have e2 : ((s.tail : Int) - 0).toNat = s.tail := by omega
          show [((S : Int) - (s.head : Int)).toNat, ((s.tail : Int) - 0).toNat]
            = [S - s.head, s.tail]
          rw [e1, e2]

/-- C20: in every state satisfying the cursor invariant, each non-empty block returned by
`get_free_blocks()` or `get_used_blocks()` has a non-null start `p` with `p + length ≤ S`, the
two blocks of a pair cover no common position, and every pointer difference the branch taken
converts to a length is non-negative and is exactly the length of the block it is stored in. -/
theorem blocks_inside_storage (hS64 : S < size_type_mod) (s : circular_buffer T S)
    (h : s.Inv) :
    (∀ b, (b = s.get_free_blocks.1 ∨ b = s.get_free_blocks.2) ∨
          (b = s.get_used_blocks.1 ∨ b = s.get_used_blocks.2) →
        b.size ≠ 0 → ∃ p, b.data = some p ∧ p + b.size ≤ S) ∧
      (∀ p, p ∈ block_positions s.get_free_blocks.1 →
        p ∉ block_positions s.get_free_blocks.2) ∧
      (∀ p, p ∈ block_positions s.get_used_blocks.1 →
        p ∉ block_positions s.get_used_blocks.2) ∧
      (∀ d ∈ s.free_block_differences, 0 ≤ d) ∧
      (∀ d ∈ s.used_block_differences, 0 ≤ d) ∧
      s.free_block_differences.map Int.toNat
        = [s.get_free_blocks.1.size, s.get_free_blocks.2.size].take
            s.free_block_differences.length ∧
      s.used_block_differences.map Int.toNat
        = [s.get_used_blocks.1.size, s.get_used_blocks.2.size].take
            s.used_block_differences.length := by
  obtain ⟨f1, f2, f3, f4⟩ := free_blocks_inside hS64 h
  obtain ⟨u1, u2, u3, u4⟩ := used_blocks_inside hS64 h
  refine ⟨?_, f2, u2, f3, u3, f4, u4⟩
  rintro b (hb | hb) hne
  · exact f1 b hb hne
  · exact u1 b hb hne

theorem blocks_inside_storage_witness :
    (4 < size_type_mod ∧ example_wrapped.Inv) ∧
    ((∀ b, (b = example_wrapped.get_free_blocks.1 ∨ b = example_wrapped.get_free_blocks.2) ∨
          (b = example_wrapped.get_used_blocks.1 ∨ b = example_wrapped.get_used_blocks.2) →
        b.size ≠ 0 → ∃ p, b.data = some p ∧ p + b.size ≤ 4) ∧
      (∀ p, p ∈ block_positions example_wrapped.get_free_blocks.1 →
        p ∉ block_positions example_wrapped.get_free_blocks.2) ∧
      (∀ p, p ∈ block_positions example_wrapped.get_used_blocks.1 →
        p ∉ block_positions example_wrapped.get_used_blocks.2) ∧
      (∀ d ∈ example_wrapped.free_block_differences, 0 ≤ d) ∧
      (∀ d ∈ example_wrapped.used_block_differences, 0 ≤ d) ∧
      example_wrapped.free_block_differences.map Int.toNat
        = [example_wrapped.get_free_blocks.1.size, example_wrapped.get_free_blocks.2.size].take
            example_wrapped.free_block_differences.length ∧
      example_wrapped.used_block_differences.map Int.toNat
        = [example_wrapped.get_used_blocks.1.size, example_wrapped.get_used_blocks.2.size].take
            example_wrapped.used_block_differences.length) :=
  ⟨⟨capacity_four_lt, example_wrapped_inv⟩,
    blocks_inside_storage capacity_four_lt example_wrapped example_wrapped_inv⟩

end circular_buffer

end CircularBuffer
